import Mathlib

/-!
Verification development for the shower-reconstruction algorithms of
`LArPandoraShowerAlg.cxx` and the `ShowerTrajPointdEdx` tool.

The C++ source is embedded shallowly:
* `double`/`float` values become `ℚ` (exact arithmetic; the claims under
  study concern exact branch structure, not rounding);
* calls to `std::sqrt` (via `TVector2::Unit`, `Point_t::R`,
  `CalculateRMS`) are threaded through an explicit parameter
  `msqrt : ℚ → ℚ`, so every theorem quantifying over `msqrt` holds for
  any square-root implementation;
* `std::map` becomes a key-sorted association list, with `operator[]`
  assignment overwriting the value stored at an existing key;
* IEEE divisions by zero (`0.0 / 0`, producing NaN) become `Option`
  results, with `none` standing for the NaN outcome;
* `cet::exception` throws become `Except` errors.
-/

namespace LArShower

/-- 3D point / vector (`geo::Point_t` / `geo::Vector_t`), components in ℚ. -/
structure Vec3 where
  x : ℚ
  y : ℚ
  z : ℚ
deriving DecidableEq, Repr

instance : Inhabited Vec3 := ⟨⟨0, 0, 0⟩⟩

/-- Componentwise subtraction of two 3-vectors. -/
def vsub (a b : Vec3) : Vec3 := ⟨a.x - b.x, a.y - b.y, a.z - b.z⟩

/-- Dot product of two 3-vectors. -/
def vdot (a b : Vec3) : ℚ := a.x * b.x + a.y * b.y + a.z * b.z

/-- Scalar multiple of a 3-vector. -/
def vsmul (c : ℚ) (a : Vec3) : Vec3 := ⟨c * a.x, c * a.y, c * a.z⟩

/-- Squared magnitude of a 3-vector; `Point_t::R()` is `msqrt` of this. -/
def vmag2 (a : Vec3) : ℚ := a.x * a.x + a.y * a.y + a.z * a.z

/-- `LArPandoraShowerAlg::SpacePointProjection`: the signed projection
`(sp->position() - vertex).Dot(direction)`. -/
def spacePointProjection (sp vertex : Vec3) (direction : Vec3) : ℚ :=
  vdot (vsub sp vertex) direction

/-- `LArPandoraShowerAlg::SpacePointPerpendicular` (four-argument overload):
`((sp->position() - vertex) - proj * direction).R()`, with `R()` modelled as
`msqrt` applied to the squared magnitude. -/
def spacePointPerpendicularProj (msqrt : ℚ → ℚ) (sp vertex : Vec3)
    (direction : Vec3) (proj : ℚ) : ℚ :=
  msqrt (vmag2 (vsub (vsub sp vertex) (vsmul proj direction)))

/-- `LArPandoraShowerAlg::SpacePointPerpendicular` (three-argument overload):
computes the projection first, then calls the four-argument overload. -/
def spacePointPerpendicular (msqrt : ℚ → ℚ) (sp vertex : Vec3)
    (direction : Vec3) : ℚ :=
  spacePointPerpendicularProj msqrt sp vertex direction
    (spacePointProjection sp vertex direction)

/-! ### `std::map` as a key-sorted association list

`OrderedSpacePoints[key] = sp` inserts a new key in sorted position, or
overwrites the value stored at an existing key (`operator[]` returns a
reference to the existing mapped value, which is then assigned). -/

/-- Insert/overwrite for a key-sorted association list, mirroring
`std::map::operator[]` followed by assignment. -/
def mapInsert {α : Type} (k : ℚ) (v : α) : List (ℚ × α) → List (ℚ × α)
  | [] => [(k, v)]
  | (k0, v0) :: rest =>
    if k < k0 then (k, v) :: (k0, v0) :: rest
    else if k0 < k then (k0, v0) :: mapInsert k v rest
    else (k0, v) :: rest

/-- `LArPandoraShowerAlg::OrderShowerSpacePoints` (vertex+direction overload):
each spacepoint is inserted into a `std::map` keyed by its projection along
`direction`; the output is the in-order list of mapped values. -/
def orderShowerSpacePoints (showersps : List Vec3) (vertex : Vec3)
    (direction : Vec3) : List Vec3 :=
  (showersps.foldl
    (fun m sp => mapInsert (spacePointProjection sp vertex direction) sp m)
    []).map Prod.snd

/-! ### `RMSShowerGradient` and its helpers -/

/-- `std::numeric_limits<double>::epsilon()`, exactly `2^-52`. -/
def dblEpsilon : ℚ := 1 / 2 ^ 52

/-- `std::numeric_limits<float>::epsilon()`, exactly `2^-23`. -/
def fltEpsilon : ℚ := 1 / 2 ^ 23

/-- `std::numeric_limits<double>::lowest()`, exactly `-(2^1024 - 2^971)`. -/
def dblLowest : ℚ := -(2 ^ 1024 - 2 ^ 971)

/-- `std::round`: nearest integer, halfway cases away from zero. -/
def cround (q : ℚ) : ℤ :=
  if q < 0 then -(⌊-q + 1 / 2⌋) else ⌊q + 1 / 2⌋

/-- `LArPandoraShowerAlg::CalculateRMS`: `lowest()` for fewer than two
entries, else `sqrt(sum of squares / (size - 1))`. -/
def calculateRMS (msqrt : ℚ → ℚ) (perps : List ℚ) : ℚ :=
  if perps.length < 2 then dblLowest
  else msqrt ((perps.foldl (fun s p => s + p * p) 0) / (perps.length - 1))

/-- Insertion into the `std::map<int, std::vector<float>>` segment map:
`len_segment_map[sg_len].push_back(len_perp)` appends to the vector at an
existing key or creates a singleton vector at a new key. -/
def segMapInsert (k : ℤ) (v : ℚ) : List (ℤ × List ℚ) → List (ℤ × List ℚ)
  | [] => [(k, [v])]
  | (k0, vs) :: rest =>
    if k < k0 then (k, [v]) :: (k0, vs) :: rest
    else if k0 < k then (k0, vs) :: segMapInsert k v rest
    else (k0, vs ++ [v]) :: rest

/-- Regression accumulator `(counter, sumx, sumy, sumx2, sumxy)` of
`RMSShowerGradient`; segments with fewer than two entries, and segments
whose RMS came out negative, are skipped. -/
def rmsRegression (msqrt : ℚ → ℚ) (segs : List (ℤ × List ℚ)) :
    ℤ × ℚ × ℚ × ℚ × ℚ :=
  segs.foldl
    (fun acc seg =>
      if seg.2.length < 2 then acc
      else
        let rms := calculateRMS msqrt seg.2
        if rms < 0 then acc
        else
          (acc.1 + 1, acc.2.1 + seg.1, acc.2.2.1 + rms,
            acc.2.2.2.1 + seg.1 * seg.1, acc.2.2.2.2 + rms * seg.1))
    (0, 0, 0, 0, 0)

/-- `LArPandoraShowerAlg::RMSShowerGradient`.  A zero segment count throws
(`Except.error`); fewer than three spacepoints returns 0; otherwise the
spacepoints are map-ordered by projection, split into segments of size
`(maxProj - minProj) / nSegments`, and the slope of a least-squares fit of
per-segment RMS versus segment index is returned (0 when the segment size
is below machine epsilon or the fit denominator is below float epsilon). -/
def rmsShowerGradient (msqrt : ℚ → ℚ) (sps : List Vec3) (showerCentre : Vec3)
    (direction : Vec3) (nSegments : ℕ) : Except Unit ℚ :=
  if nSegments = 0 then .error ()
  else if sps.length < 3 then .ok 0
  else
    let ordered := orderShowerSpacePoints sps showerCentre direction
    let minProj := spacePointProjection (ordered.getD 0 default)
      showerCentre direction
    let maxProj := spacePointProjection (ordered.getD (ordered.length - 1)
      default) showerCentre direction
    let len := maxProj - minProj
    let segmentsize := len / nSegments
    if segmentsize < dblEpsilon then .ok 0
    else
      let segMap := ordered.foldl
        (fun m sp =>
          let l := spacePointProjection sp showerCentre direction
          let lperp := spacePointPerpendicularProj msqrt sp showerCentre
            direction l
          segMapInsert (cround (l / segmentsize)) lperp m)
        []
      let r := rmsRegression msqrt segMap
      let counter : ℚ := r.1
      let sumx := r.2.1
      let sumy := r.2.2.1
      let sumx2 := r.2.2.2.1
      let sumxy := r.2.2.2.2
      let denom := counter * sumx2 - sumx * sumx
      if |denom| < fltEpsilon then .ok 0
      else .ok ((counter * sumxy - sumx * sumy) / denom)

/-! ### Hits, detector geometry, and `OrderShowerHits` -/

/-- A `recob::Hit` restricted to the attributes this core reads: plane id
(`WireID().asPlaneID()`, one ℕ standing for the full cryostat/TPC/plane
triple), wire number, start/end ticks, peak time, and charge integral. -/
structure Hit where
  plane : ℕ
  wire : ℕ
  startTick : ℤ
  endTick : ℤ
  peakTime : ℚ
  integral : ℚ
deriving DecidableEq, Repr

instance : Inhabited Hit := ⟨⟨0, 0, 0, 0, 0, 0⟩⟩

/-- The external geometry and detector-properties services consumed by
`OrderShowerHits` / `HitCoordinates`, as opaque queryable functions. -/
structure Geo where
  wirePitch : ℕ → ℚ
  wireCoordinate : Vec3 → ℕ → ℚ
  increasingWireDirection : ℕ → Vec3
  convertTicksToX : ℚ → ℕ → ℚ

/-- Dot product of 2D vectors (`TVector2::operator*`). -/
def dot2 (a b : ℚ × ℚ) : ℚ := a.1 * b.1 + a.2 * b.2

/-- Componentwise subtraction of 2D vectors. -/
def sub2 (a b : ℚ × ℚ) : ℚ × ℚ := (a.1 - b.1, a.2 - b.2)

/-- `TVector2::Unit()`: the zero vector maps to itself, otherwise each
component is divided by the modulus `sqrt(x^2 + y^2)` (via `msqrt`). -/
def unit2 (msqrt : ℚ → ℚ) (v : ℚ × ℚ) : ℚ × ℚ :=
  if v.1 * v.1 + v.2 * v.2 = 0 then (0, 0)
  else
    let m := msqrt (v.1 * v.1 + v.2 * v.2)
    (v.1 / m, v.2 / m)

/-- `LArPandoraShowerAlg::HitCoordinates`: `(wire * pitch,
ConvertTicksToX(peakTime, plane))`. -/
def hitCoordinates (geo : Geo) (h : Hit) : ℚ × ℚ :=
  (h.wire * geo.wirePitch h.plane, geo.convertTicksToX h.peakTime h.plane)

/-- `LArPandoraShowerAlg::OrderShowerHits`: hits are keyed in a `std::map`
by the projection of their 2D coordinates (relative to the 2D start
position) onto the normalized 2D shower direction.  The loop `break`s at
the first hit whose plane differs from the first hit's plane, i.e. exactly
the `takeWhile` prefix is inserted.  A final pass reverses the ordered
list when the last element's absolute projection is smaller than the
first's.  The source dereferences `hits.front()` unconditionally; an empty
input is undefined behaviour there and is modelled as `[]`. -/
def orderShowerHits (msqrt : ℚ → ℚ) (geo : Geo) (hits : List Hit)
    (showerStartPosition : Vec3) (showerDirection : Vec3) : List Hit :=
  match hits with
  | [] => []
  | startHit :: _ =>
    let planeid := startHit.plane
    let pitch := geo.wirePitch planeid
    let start2D : ℚ × ℚ :=
      (geo.wireCoordinate showerStartPosition planeid * pitch,
        showerStartPosition.x)
    let planeDirection := geo.increasingWireDirection planeid
    let dir2D := unit2 msqrt (vdot showerDirection planeDirection,
      showerDirection.x)
    let processed := hits.takeWhile (fun h => h.plane = planeid)
    let orderedMap := processed.foldl
      (fun m h =>
        mapInsert (dot2 (sub2 (hitCoordinates geo h) start2D) dir2D) h m)
      []
    let showerHits := orderedMap.map Prod.snd
    match showerHits with
    | [] => []
    | frontHit :: restHits =>
      let backHit := restHits.getLastD frontHit
      let frontproj :=
        dot2 (sub2 (hitCoordinates geo frontHit) start2D) dir2D
      let backproj :=
        dot2 (sub2 (hitCoordinates geo backHit) start2D) dir2D
      if |backproj| < |frontproj| then (frontHit :: restHits).reverse
      else frontHit :: restHits

/-! ### `OrganizeHits` (hit snippet organizer) -/

/-- The local `HitIdentifier` struct of `OrganizeHits`. -/
structure HId where
  startTick : ℤ
  endTick : ℤ
  wire : ℕ
  integral : ℚ
deriving DecidableEq, Repr

/-- `HitIdentifier`'s constructor from a hit. -/
def hIdOf (h : Hit) : HId := ⟨h.startTick, h.endTick, h.wire, h.integral⟩

/-- `HitIdentifier::operator==`: same snippet iff start tick, end tick and
wire all agree (the integral is not compared). -/
def sameSnippet (a b : HId) : Bool :=
  a.startTick == b.startTick && a.endTick == b.endTick && a.wire == b.wire

/-- One entry of `hits_org`/`hit_idents` for a single plane: the current
primary hit index, the secondary indices in push order, and the stored
`HitIdentifier` of the current primary. -/
structure Snip where
  primary : ℕ
  secs : List ℕ
  ident : HId
deriving DecidableEq, Repr

/-- The inner loop of `OrganizeHits` over the groups already recorded for
one plane: the first group whose stored identifier equals the incoming
hit's identifier absorbs it (replacing the primary when the incoming
integral is strictly greater, pushing the old primary to the secondaries);
if no group matches, a fresh group is appended. -/
def updateRow (i : ℕ) (hid : HId) : List Snip → List Snip
  | [] => [⟨i, [], hid⟩]
  | s :: rest =>
    if sameSnippet hid s.ident then
      (if s.ident.integral < hid.integral then
        ⟨i, s.secs ++ [s.primary], hid⟩
      else ⟨s.primary, s.secs ++ [i], s.ident⟩) :: rest
    else s :: updateRow i hid rest

/-- The main loop of `OrganizeHits` over the (index, hit) pairs, updating
the per-plane group row of each hit's plane. -/
def buildRowsGo : List (ℕ × Hit) → (ℕ → List Snip) → (ℕ → List Snip)
  | [], st => st
  | (i, h) :: rest, st =>
    buildRowsGo rest
      (fun p => if p = h.plane then updateRow i (hIdOf h) (st p) else st p)

/-- Pair each element of a list with its index, starting from `i`. -/
def enumIdx (i : ℕ) : List Hit → List (ℕ × Hit)
  | [] => []
  | h :: rest => (i, h) :: enumIdx (i + 1) rest

/-- Per-plane group rows for an input hit list (planes indexed from 0). -/
def buildRows (hits : List Hit) : ℕ → List Snip :=
  buildRowsGo (enumIdx 0 hits) (fun _ => [])

/-- `OrganizeHits` at the level of hit indices: the groups of all planes
`0..5` (`nplanes = 6` is hardcoded in the source; a hit with plane ≥ 6
indexes out of bounds there) concatenated in plane order. -/
def organizeHitsIdx (hits : List Hit) : List (ℕ × List ℕ) :=
  ((List.range 6).map
    (fun p => (buildRows hits p).map (fun s => (s.primary, s.secs)))).flatten

/-- `OrganizeHits`: each group of indices resolved back to hits, giving
the mapping from primary hit to its list of secondary hits. -/
def organizeHits (hits : List Hit) : List (Hit × List Hit) :=
  (organizeHitsIdx hits).map
    (fun g => (hits.getD g.1 default, g.2.map (fun j => hits.getD j default)))

/-! ### `ShowerCentre`: per-spacepoint trimmed charge (all-plane branch)

These definitions embed lines 237–289 of `LArPandoraShowerAlg.cxx` for the
`!fUseCollectionOnly` policy.  The lifetime correction
`exp(sampling_rate * peakTime / (lifetime * 1e3))` is an external
transcendental computation and is threaded as an opaque factor
`corr : ℚ → ℚ` of the peak time (`corr = fun _ => 1` corresponds to a zero
sampling rate, where the factor is exactly `exp 0 = 1`).

The trim test of the source is
`Q > mean - 2*rms && Q < mean + 2*rms` with
`rms = sqrt((charge2 - charge*charge)/(n-1))` (or `rms = 1` for fewer than
two hits).  It is embedded square-root-free as
`(Q - mean)^2 < 4 * trimVar` with `trimVar = rms^2`: for `trimVar ≥ 0`
the two forms are equivalent (`rms = sqrt trimVar ≥ 0`), and for
`trimVar < 0` the source's `rms` is NaN, both IEEE comparisons are false,
and the squared form is false as well since `(Q - mean)^2 ≥ 0 > 4*trimVar`. -/

/-- Lifetime-corrected charge of one hit:
`hit->Integral() * exp(sampling_rate * peakTime / (lifetime * 1e3))`. -/
def lifeQ (corr : ℚ → ℚ) (h : Hit) : ℚ := h.integral * corr h.peakTime

/-- The `charge` accumulator: sum of lifetime-corrected integrals. -/
def chargeSum (corr : ℚ → ℚ) (hits : List Hit) : ℚ :=
  hits.foldl (fun s h => s + lifeQ corr h) 0

/-- The `charge2` accumulator: sum of squared lifetime-corrected
integrals. -/
def chargeSqSum (corr : ℚ → ℚ) (hits : List Hit) : ℚ :=
  hits.foldl (fun s h => s + lifeQ corr h * lifeQ corr h) 0

/-- The first-pass mean `charge / hits.size()`.  (For an empty hit list
the source divides zero by zero; the value is irrelevant downstream since
the trim loop is then empty.) -/
def firstPassMean (corr : ℚ → ℚ) (hits : List Hit) : ℚ :=
  chargeSum corr hits / hits.length

/-- The square of the source's `rms`: `1` for fewer than two hits
(`float rms = 1`), else `(charge2 - charge*charge) / (size - 1)`. -/
def trimVar (corr : ℚ → ℚ) (hits : List Hit) : ℚ :=
  if 1 < hits.length then
    (chargeSqSum corr hits - chargeSum corr hits * chargeSum corr hits) /
      ((hits.length : ℚ) - 1)
  else 1

/-- The trim test `mean - 2*rms < Q && Q < mean + 2*rms` in its
square-root-free form (see the section comment). -/
def inTrim (corr : ℚ → ℚ) (hits : List Hit) (h : Hit) : Bool :=
  decide ((lifeQ corr h - firstPassMean corr hits) ^ 2 <
    4 * trimVar corr hits)

/-- The count `n` of hits surviving the trim. -/
def trimmedCount (corr : ℚ → ℚ) (hits : List Hit) : ℕ :=
  (hits.filter (inTrim corr hits)).length

/-- The recomputed `charge` accumulated over surviving hits only. -/
def trimmedSum (corr : ℚ → ℚ) (hits : List Hit) : ℚ :=
  chargeSum corr (hits.filter (inTrim corr hits))

/-- The per-spacepoint charge of the all-plane branch: the source executes
`charge /= n` unconditionally, so `n = 0` yields IEEE `0/0 = NaN`
(modelled as `none`) after logging a non-fatal warning. -/
def spacePointTrimmedCharge (corr : ℚ → ℚ) (hits : List Hit) : Option ℚ :=
  if trimmedCount corr hits = 0 then none
  else some (trimmedSum corr hits / trimmedCount corr hits)

/-- Modelled from the spec: the unbiased sample variance
`Σ (Q_i - mean)^2 / (n - 1)` of the lifetime-corrected integrals, the
square of the "unbiased sample standard deviation" the spec prescribes
for the ±2-sigma trim. -/
def unbiasedVar (corr : ℚ → ℚ) (hits : List Hit) : ℚ :=
  (hits.foldl
    (fun s h => s + (lifeQ corr h - firstPassMean corr hits) ^ 2) 0) /
    ((hits.length : ℚ) - 1)

/-! ### `SpacePointCharge` and `SpacePointTime` -/

/-- `LArPandoraShowerAlg::SpacePointCharge`: sums the integrals of the
hits associated to the spacepoint and divides by the hit count.  The
division is unguarded in the source; an empty association list yields
IEEE `0/0 = NaN`, modelled as `none`. -/
def spacePointCharge (hits : List Hit) : Option ℚ :=
  let charge := hits.foldl (fun s h => s + h.integral) 0
  if hits.length = 0 then none else some (charge / hits.length)

/-- `LArPandoraShowerAlg::SpacePointTime`: sums the peak times of the
hits associated to the spacepoint and divides by the hit count; the
division by a zero count is likewise modelled as `none`. -/
def spacePointTime (hits : List Hit) : Option ℚ :=
  let time := hits.foldl (fun s h => s + h.peakTime) 0
  if hits.length = 0 then none else some (time / hits.length)

/-! ### `ShowerTrajPointdEdx::FinddEdxLength` -/

/-- The scan loop of `FinddEdxLength`, structurally recursive on a fuel
argument initialised to the number of remaining iterations.  `i` is
`dEdx_iter`; `acc` is `dEdx_val`.  In each branch the source appends the
current value when it is consistent with the regime (`> cut` when
`upper`, `< cut` otherwise), skips it when one of the next two values is
`> cut` (the look-ahead "rescue"), and otherwise `break`s. -/
def finddEdxGo (cut : ℚ) (vec : List ℚ) (upper : Bool) :
    ℕ → ℕ → List ℚ → List ℚ
  | 0, _, acc => acc
  | fuel + 1, i, acc =>
    let d := vec.getD i 0
    let consistent := if upper then cut < d else d < cut
    if consistent then finddEdxGo cut vec upper fuel (i + 1) (acc ++ [d])
    else if i < vec.length - 1 ∧ cut < vec.getD (i + 1) 0 then
      finddEdxGo cut vec upper fuel (i + 1) acc
    else if i < vec.length - 2 ∧ cut < vec.getD (i + 2) 0 then
      finddEdxGo cut vec upper fuel (i + 1) acc
    else acc

/-- `ShowerTrajPointdEdx::FinddEdxLength(dEdx_vec, dEdx_val)` with
`fdEdxCut = cut`, returning the `dEdx_val` it fills: pass-through when
`cut > 10` or fewer than four entries; otherwise the upper-bound regime
holds when more than one of the first three entries exceeds the cut, the
first three entries are pushed unconditionally, and the scan loop starts
at index 2 (the source's `dEdx_iter = 2`, an index already pushed). -/
def finddEdxLength (cut : ℚ) (vec : List ℚ) : List ℚ :=
  if 10 < cut then vec
  else if vec.length < 4 then vec
  else
    let ubInt : ℕ :=
      (if cut < vec.getD 0 0 then 1 else 0) +
      (if cut < vec.getD 1 0 then 1 else 0) +
      (if cut < vec.getD 2 0 then 1 else 0)
    let upper := 1 < ubInt
    finddEdxGo cut vec upper (vec.length - 2) 2
      [vec.getD 0 0, vec.getD 1 0, vec.getD 2 0]

/-! ### `ShowerTrajPointdEdx::CalculateElement`, dE/dx aggregation -/

/-- The mean-branch accumulator `dEdx_mean` (lines 1278–1282): values
above 10 or below 0 are skipped, the rest are summed. -/
def dEdxMeanSum : List ℚ → ℚ
  | [] => 0
  | d :: rest => (if 10 < d ∨ d < 0 then 0 else d) + dEdxMeanSum rest

/-- The per-plane reported dE/dx value when the mean is configured
(`fUseMedian = false`): `-999` for an empty trimmed sequence, else
`dEdx_mean / (dEdx_plane.second).size()` — the denominator is the *full*
length of the trimmed sequence, not the number of values that survived
the physicality filter. -/
def dEdxPlaneValMean (trimmed : List ℚ) : ℚ :=
  if trimmed.isEmpty then -999
  else dEdxMeanSum trimmed / trimmed.length

/-- Predicate for "physical" dE/dx values (not above 10 and not below 0),
the complement of the mean branch's skip condition. -/
def physicalDEdx (d : ℚ) : Bool := decide (¬(10 < d ∨ d < 0))

/-- Modelled from the spec: "the mean of the trimmed sequence, excluding
non-physical values" — the sum of the physical values divided by the
number of physical values. -/
def specTrimmedMean (trimmed : List ℚ) : ℚ :=
  ((trimmed.filter physicalDEdx).foldl (· + ·) 0) /
    (trimmed.filter physicalDEdx).length

/-! ### Invariant predicates and concrete fixtures used by the theorems -/

/-- Correctness of one recorded snippet group with respect to the input
hit list: the stored identifier is the primary's, and every secondary has
integral at most the primary's, with ties only for hits seen after the
primary, and shares the primary's snippet identity. -/
def SnipOK (hits : List Hit) (s : Snip) : Prop :=
  ∃ hp, hits.get? s.primary = some hp ∧ s.ident = hIdOf hp ∧
    ∀ j ∈ s.secs, ∃ hj, hits.get? j = some hj ∧
      hj.integral ≤ hp.integral ∧
      (hj.integral = hp.integral → s.primary < j) ∧
      sameSnippet (hIdOf hj) (hIdOf hp) = true

/-- All indices recorded in a snippet group are below `n`. -/
def SnipLt (s : Snip) (n : ℕ) : Prop :=
  s.primary < n ∧ ∀ j ∈ s.secs, j < n

/-- An index is recorded (as primary or secondary) in a snippet group. -/
def SnipHas (s : Snip) (i : ℕ) : Prop := s.primary = i ∨ i ∈ s.secs

/-- A constant lifetime-correction factor of 1 (exactly the value of
`exp(sampling_rate * peakTime / (lifetime * 1e3))` at zero sampling
rate). -/
def corrOne : ℚ → ℚ := fun _ => 1

/-- Two hits whose lifetime-corrected integrals are 3 and 1: the source's
`rms` for them is `sqrt(-6)` (NaN), so the ±2-sigma window keeps nothing. -/
def hitsQ31 : List Hit := [⟨0, 0, 0, 0, 0, 3⟩, ⟨0, 0, 0, 0, 0, 1⟩]

/-- Two hits with equal corrected integral 1: their unbiased sample
standard deviation is 0, while the source's `rms` argument is `-2`. -/
def hitsQ11 : List Hit := [⟨0, 0, 0, 0, 0, 1⟩, ⟨0, 0, 0, 0, 0, 1⟩]

/-- Two hits with identical snippet identity `(wire 3, ticks 1–2)` and
integrals 5 and 10, in that input order. -/
def hitInt5 : Hit := ⟨0, 3, 1, 2, 0, 5⟩

/-- See `hitInt5`. -/
def hitInt10 : Hit := ⟨0, 3, 1, 2, 0, 10⟩

/-- A concrete geometry/detector-properties fixture. -/
def geoFix : Geo := ⟨fun _ => 1, fun _ _ => 0, fun _ => ⟨0, 1, 0⟩, fun t _ => t⟩

/-- A hit on plane 0 (fixture). -/
def hitPlane0 : Hit := ⟨0, 0, 0, 0, 0, 1⟩

/-- A hit on plane 1 (fixture). -/
def hitPlane1 : Hit := ⟨1, 0, 0, 0, 7, 1⟩

/-- Two spacepoints with equal projection 0 along the x axis but distinct
positions. -/
def spsDupProj : List Vec3 := [⟨0, 1, 0⟩, ⟨0, 2, 0⟩]

/-! ## Theorems -/

/-! ### Claim C1: `FinddEdxLength` on `[1,1,1,1,1]` and `[1,1,1,20,21]` -/

/-- Claim C1, as stated, is false on the code: with cut 10, the sequence
`[1,1,1,1,1]` is not returned unchanged, and `[1,1,1,20,21]` does not
yield `[1,1,1]`.  The scan loop starts at `dEdx_iter = 2`, an index whose
value was already pushed, so index 2 is emitted twice. -/
theorem C1_counterexample :
    finddEdxLength 10 [1, 1, 1, 1, 1] ≠ [1, 1, 1, 1, 1] ∧
    finddEdxLength 10 [1, 1, 1, 20, 21] ≠ [1, 1, 1] := by
  constructor <;> decide

/-- Claim C1 (amended): `FinddEdxLength` with a dE/dx cut of 10 applied to
`[1,1,1,1,1]` returns `[1,1,1,1,1,1]` — the element at index 2 is emitted
twice because the scan loop begins at index 2, which was already pushed —
and applied to `[1,1,1,20,21]` returns `[1,1,1,1]` (index 2 duplicated;
the values 20 and 21 are trimmed). -/
theorem C1_amended_finddEdxLength :
    finddEdxLength 10 [1, 1, 1, 1, 1] = [1, 1, 1, 1, 1, 1] ∧
    finddEdxLength 10 [1, 1, 1, 20, 21] = [1, 1, 1, 1] := by
  constructor <;> decide

/-! ### Claim C4: mean-branch dE/dx aggregation -/

/-- The mean-branch accumulator sums exactly the physical values. -/
theorem dEdxMeanSum_eq_filter_sum (l : List ℚ) :
    dEdxMeanSum l = (l.filter physicalDEdx).sum := by
  induction l with
  | nil => rfl
  | cons d rest ih =>
    by_cases hd : 10 < d ∨ d < 0
    · have : physicalDEdx d = false := by
        simp [physicalDEdx, hd]
      simp [dEdxMeanSum, List.filter_cons, this, ih, hd]
    · have : physicalDEdx d = true := by
        simp [physicalDEdx]
        push_neg at hd
        exact hd
      simp [dEdxMeanSum, List.filter_cons, this, ih, hd]

/-- Claim C4, as stated, is false on the code: for the trimmed sequence
`[5, 20]` the code reports `5/2` (the physical value 5 divided by the
*full* length 2), while the mean of the sequence excluding non-physical
values is `5`. -/
theorem C4_counterexample :
    dEdxPlaneValMean [5, 20] = 5 / 2 ∧ specTrimmedMean [5, 20] = 5 ∧
    dEdxPlaneValMean [5, 20] ≠ specTrimmedMean [5, 20] := by
  have h1 : dEdxPlaneValMean [5, 20] = 5 / 2 := by
    norm_num [dEdxPlaneValMean, dEdxMeanSum]
  have h2 : specTrimmedMean [5, 20] = 5 := by
    norm_num [specTrimmedMean, physicalDEdx, List.filter]
  refine ⟨h1, h2, ?_⟩
  rw [h1, h2]
  norm_num

/-- Claim C4 (amended): when the mean is configured, the reported
per-plane value equals the sum of the physical values (those not below 0
and not above 10) divided by the length of the whole trimmed sequence —
non-physical values are excluded from the sum but still counted in the
denominator — and every plane whose trimmed sequence is empty yields the
sentinel −999. -/
theorem C4_amended_dEdxPlaneValMean :
    (∀ l : List ℚ, l ≠ [] →
      dEdxPlaneValMean l = (l.filter physicalDEdx).sum / l.length) ∧
    dEdxPlaneValMean [] = -999 := by
  constructor
  · intro l hl
    rw [dEdxPlaneValMean, if_neg (by simpa using hl), dEdxMeanSum_eq_filter_sum]
  · rfl

/-- Witness for `C4_amended_dEdxPlaneValMean` at the trimmed sequence
`[5, 20]`. -/
theorem C4_witness :
    dEdxPlaneValMean [5, 20] =
      (([5, 20] : List ℚ).filter physicalDEdx).sum / ([5, 20] : List ℚ).length :=
  C4_amended_dEdxPlaneValMean.1 [5, 20] (by decide)

/-! ### Claim C10: `SpacePointCharge` / `SpacePointTime` -/

/-- Accumulating `f` over a list starting from `a` is `a` plus the sum of
the mapped list (the loop-to-sum correspondence used repeatedly below). -/
theorem foldl_add_eq (f : Hit → ℚ) :
    ∀ (l : List Hit) (a : ℚ), l.foldl (fun s h => s + f h) a = a + (l.map f).sum
  | [], a => by simp
  | h :: rest, a => by
    simp only [List.foldl_cons, List.map_cons, List.sum_cons]
    rw [foldl_add_eq f rest (a + f h)]
    ring

/-- Claim C10: `SpacePointCharge` (resp. `SpacePointTime`) returns the
arithmetic mean of the associated hits' integrals (peak times) when the
association list is non-empty; for an empty association list the
unguarded division by `hits.size()` is a division by zero (IEEE
`0/0 = NaN`), i.e. the embedding's `none` branch is reached, so the
non-empty list is a genuine precondition. -/
theorem C10_spacePointChargeTime :
    (∀ hits : List Hit, hits ≠ [] →
      spacePointCharge hits = some ((hits.map Hit.integral).sum / hits.length) ∧
      spacePointTime hits = some ((hits.map Hit.peakTime).sum / hits.length)) ∧
    spacePointCharge [] = none ∧ spacePointTime [] = none := by
  refine ⟨fun hits hl => ?_, rfl, rfl⟩
  have hlen : hits.length ≠ 0 := by simpa using hl
  constructor
  · rw [spacePointCharge, foldl_add_eq Hit.integral hits 0, if_neg hlen]
    rw [zero_add]
  · rw [spacePointTime, foldl_add_eq Hit.peakTime hits 0, if_neg hlen]
    rw [zero_add]

/-- Witness for `C10_spacePointChargeTime` on two hits with integrals 3
and 5 and peak times 0 and 7. -/
theorem C10_witness :
    spacePointCharge [hitPlane0, hitPlane1] =
      some ((([hitPlane0, hitPlane1] : List Hit).map Hit.integral).sum /
        ([hitPlane0, hitPlane1] : List Hit).length) ∧
    spacePointTime [hitPlane0, hitPlane1] =
      some ((([hitPlane0, hitPlane1] : List Hit).map Hit.peakTime).sum /
        ([hitPlane0, hitPlane1] : List Hit).length) :=
  C10_spacePointChargeTime.1 [hitPlane0, hitPlane1] (by simp)

/-! ### Claim C5: `RMSShowerGradient` guards -/

/-- Claim C5: `RMSShowerGradient` throws an unrecoverable configuration
error for a zero segment count regardless of the point cloud (this check
runs first), and returns the neutral value 0 for every point cloud with
fewer than three points when the segment count is non-zero. -/
theorem C5_rmsShowerGradient_guards :
    (∀ (msqrt : ℚ → ℚ) (sps : List Vec3) (centre direction : Vec3),
      rmsShowerGradient msqrt sps centre direction 0 = .error ()) ∧
    (∀ (msqrt : ℚ → ℚ) (sps : List Vec3) (centre direction : Vec3) (n : ℕ),
      n ≠ 0 → sps.length < 3 →
      rmsShowerGradient msqrt sps centre direction n = .ok 0) := by
  constructor
  · intro msqrt sps centre direction
    simp [rmsShowerGradient]
  · intro msqrt sps centre direction n hn hlen
    rw [rmsShowerGradient, if_neg hn, if_pos hlen]

/-- Witness for `C5_rmsShowerGradient_guards`: one segment, an empty
point cloud. -/
theorem C5_witness :
    rmsShowerGradient (fun q => q) [] ⟨0, 0, 0⟩ ⟨1, 0, 0⟩ 0 = .error () ∧
    rmsShowerGradient (fun q => q) [] ⟨0, 0, 0⟩ ⟨1, 0, 0⟩ 1 = .ok 0 :=
  ⟨C5_rmsShowerGradient_guards.1 (fun q => q) [] ⟨0, 0, 0⟩ ⟨1, 0, 0⟩,
    C5_rmsShowerGradient_guards.2 (fun q => q) [] ⟨0, 0, 0⟩ ⟨1, 0, 0⟩ 1
      (by decide) (by decide)⟩

/-! ### Claim C9: projection/perpendicular Pythagorean identity -/

/-- Claim C9: for a unit-length direction, whenever `msqrt` returns the
exact non-negative square root at the squared magnitude that
`SpacePointPerpendicular` passes to it, the perpendicular distance is
non-negative and the squared projection plus the squared perpendicular
distance equals the squared distance from the spacepoint to the vertex. -/
theorem C9_pythagorean (msqrt : ℚ → ℚ) (sp vertex direction : Vec3)
    (hunit : vmag2 direction = 1)
    (hpos : 0 ≤ spacePointPerpendicular msqrt sp vertex direction)
    (hexact : (spacePointPerpendicular msqrt sp vertex direction) ^ 2 =
      vmag2 (vsub (vsub sp vertex)
        (vsmul (spacePointProjection sp vertex direction) direction))) :
    0 ≤ spacePointPerpendicular msqrt sp vertex direction ∧
    (spacePointProjection sp vertex direction) ^ 2 +
      (spacePointPerpendicular msqrt sp vertex direction) ^ 2 =
      vmag2 (vsub sp vertex) := by
  refine ⟨hpos, ?_⟩
  rw [hexact]
  simp only [spacePointProjection, vmag2, vsub, vsmul, vdot] at hunit ⊢
  linear_combination
    (((sp.x - vertex.x) * direction.x + (sp.y - vertex.y) * direction.y +
      (sp.z - vertex.z) * direction.z) ^ 2) * hunit

/-- Witness for `C9_pythagorean`: vertex at the origin, direction
`(1,0,0)`, spacepoint `(2,3,4)`; the perpendicular component is `(0,3,4)`
of length 5, and `4 + 25 = 29`. -/
theorem C9_witness :
    0 ≤ spacePointPerpendicular (fun _ => 5) ⟨2, 3, 4⟩ ⟨0, 0, 0⟩ ⟨1, 0, 0⟩ ∧
    (spacePointProjection ⟨2, 3, 4⟩ ⟨0, 0, 0⟩ ⟨1, 0, 0⟩) ^ 2 +
      (spacePointPerpendicular (fun _ => 5) ⟨2, 3, 4⟩ ⟨0, 0, 0⟩ ⟨1, 0, 0⟩) ^ 2 =
      vmag2 (vsub ⟨2, 3, 4⟩ ⟨0, 0, 0⟩) :=
  C9_pythagorean (fun _ => 5) ⟨2, 3, 4⟩ ⟨0, 0, 0⟩ ⟨1, 0, 0⟩ (by norm_num [vmag2])
    (by norm_num [spacePointPerpendicular, spacePointPerpendicularProj])
    (by norm_num [spacePointPerpendicular, spacePointPerpendicularProj,
      spacePointProjection, vmag2, vsub, vsmul, vdot])

/-! ### Claims C2 and C3: the ±2-sigma trim of `ShowerCentre` -/

/-- `chargeSum` as a mapped sum. -/
theorem chargeSum_eq (corr : ℚ → ℚ) (hits : List Hit) :
    chargeSum corr hits = (hits.map (lifeQ corr)).sum := by
  rw [chargeSum, foldl_add_eq (lifeQ corr) hits 0, zero_add]

/-- `chargeSqSum` as a mapped sum of squares. -/
theorem chargeSqSum_eq (corr : ℚ → ℚ) (hits : List Hit) :
    chargeSqSum corr hits = ((hits.map (lifeQ corr)).map (fun q => q * q)).sum := by
  rw [chargeSqSum, foldl_add_eq (fun h => lifeQ corr h * lifeQ corr h) hits 0,
    zero_add, List.map_map]
  rfl

/-- Sum of squared deviations from a constant, expanded. -/
theorem sum_sq_dev (m : ℚ) : ∀ l : List ℚ,
    (l.map (fun q => (q - m) ^ 2)).sum =
      (l.map (fun q => q * q)).sum - 2 * m * l.sum + l.length * m ^ 2
  | [] => by simp
  | q :: rest => by
    simp only [List.map_cons, List.sum_cons, List.length_cons, sum_sq_dev m rest]
    push_cast
    ring

/-- For a list of non-negative rationals, the sum of squares is at most
the square of the sum. -/
theorem sumSq_le_sq_sum : ∀ l : List ℚ, (∀ x ∈ l, 0 ≤ x) →
    (l.map (fun q => q * q)).sum ≤ l.sum * l.sum
  | [], _ => by simp
  | a :: rest, hpos => by
    have ha : 0 ≤ a := hpos a (List.mem_cons_self a rest)
    have hrest : ∀ x ∈ rest, 0 ≤ x :=
      fun x hx => hpos x (List.mem_cons_of_mem a hx)
    have hS : 0 ≤ rest.sum := List.sum_nonneg hrest
    have ih := sumSq_le_sq_sum rest hrest
    simp only [List.map_cons, List.sum_cons]
    nlinarith

/-- For at least two strictly positive rationals, the sum of squares is
strictly below the square of the sum. -/
theorem sumSq_lt_sq_sum : ∀ l : List ℚ, 2 ≤ l.length → (∀ x ∈ l, 0 < x) →
    (l.map (fun q => q * q)).sum < l.sum * l.sum
  | [], hlen, _ => by simp at hlen
  | [a], hlen, _ => by simp at hlen
  | a :: b :: rest, _, hpos => by
    have ha : 0 < a := hpos a (List.mem_cons_self a (b :: rest))
    have hrest : ∀ x ∈ b :: rest, 0 < x :=
      fun x hx => hpos x (List.mem_cons_of_mem a hx)
    have hS : 0 < (b :: rest).sum :=
      List.sum_pos (b :: rest) hrest (List.cons_ne_nil b rest)
    have hle := sumSq_le_sq_sum (b :: rest) (fun x hx => (hrest x hx).le)
    simp only [List.map_cons, List.sum_cons] at hle hS ⊢
    nlinarith [mul_pos ha hS]

/-- Claim C2, as stated, is false on the code: for a spacepoint with two
associated hits of corrected integrals 3 and 1, the source's `rms`
argument is `(10 - 16)/1 = -6`, so `rms` is NaN and zero hits pass the
±2-sigma window, yet the recorded charge is not zero: the code still
executes `charge /= n` with `n = 0`, an IEEE `0/0` producing NaN
(embedded as `none ≠ some 0`). -/
theorem C2_counterexample :
    (∀ h ∈ hitsQ31, inTrim corrOne hitsQ31 h = false) ∧
    spacePointTrimmedCharge corrOne hitsQ31 ≠ some 0 := by
  have htrim : ∀ h ∈ hitsQ31, inTrim corrOne hitsQ31 h = false := by
    intro h hh
    fin_cases hh <;>
      norm_num [inTrim, lifeQ, corrOne, hitsQ31, firstPassMean, trimVar,
        chargeSum, chargeSqSum]
  refine ⟨htrim, ?_⟩
  have hfil : hitsQ31.filter (inTrim corrOne hitsQ31) = [] :=
    List.filter_eq_nil_iff.2 (by
      intro h hh
      simp [htrim h hh])
  rw [spacePointTrimmedCharge, trimmedCount, hfil]
  simp

/-- Claim C2 (amended): in the all-plane charge policy, for every
spacepoint for which zero associated hits fall within the ±2-sigma window
of the first-pass mean, the code divides the zero accumulated charge by
the zero count, so the recorded charge is NaN/undefined (`none`), not
zero; the logged message is a non-fatal warning.  Moreover this situation
is generic: whenever a spacepoint has at least two hits all of strictly
positive corrected charge, the `rms` argument
`(charge2 - charge*charge)/(n-1)` is negative (NaN `rms`), every window
comparison is false, and the charge is undefined. -/
theorem C2_amended_trimmedCharge_nan (corr : ℚ → ℚ) (hits : List Hit) :
    ((∀ h ∈ hits, inTrim corr hits h = false) →
      spacePointTrimmedCharge corr hits = none) ∧
    (2 ≤ hits.length → (∀ h ∈ hits, 0 < lifeQ corr h) →
      spacePointTrimmedCharge corr hits = none) := by
  have hnone : (∀ h ∈ hits, inTrim corr hits h = false) →
      spacePointTrimmedCharge corr hits = none := by
    intro hall
    have hfil : hits.filter (inTrim corr hits) = [] :=
      List.filter_eq_nil_iff.2 (by
        intro h hh
        simp [hall h hh])
    rw [spacePointTrimmedCharge, trimmedCount, hfil]
    simp
  refine ⟨hnone, fun hlen hpos => hnone ?_⟩
  have hlen1 : 1 < hits.length := by omega
  have hmap : ∀ x ∈ hits.map (lifeQ corr), 0 < x := by
    intro x hx
    rcases List.mem_map.1 hx with ⟨h, hh, rfl⟩
    exact hpos h hh
  have hlt : chargeSqSum corr hits < chargeSum corr hits * chargeSum corr hits := by
    rw [chargeSum_eq, chargeSqSum_eq]
    exact sumSq_lt_sq_sum (hits.map (lifeQ corr)) (by simpa using hlen) hmap
  have hden : (0 : ℚ) < (hits.length : ℚ) - 1 := by
    have : (2 : ℚ) ≤ (hits.length : ℚ) := by exact_mod_cast hlen
    linarith
  have hvar : trimVar corr hits < 0 := by
    rw [trimVar, if_pos hlen1]
    exact div_neg_of_neg_of_pos (by linarith) hden
  intro h _
  rw [inTrim, decide_eq_false_iff_not, not_lt]
  nlinarith [sq_nonneg (lifeQ corr h - firstPassMean corr hits)]

/-- Witness for `C2_amended_trimmedCharge_nan` at the two hits with
corrected integrals 3 and 1. -/
theorem C2_witness : spacePointTrimmedCharge corrOne hitsQ31 = none :=
  (C2_amended_trimmedCharge_nan corrOne hitsQ31).2 (by decide)
    (by
      intro h hh
      fin_cases hh <;> norm_num [lifeQ, corrOne, hitsQ31])

/-- Claim C3, as stated, is false on the code: for two hits with equal
corrected integral 1, the unbiased sample variance is 0 (standard
deviation 0), but the argument the source passes to `sqrt` for its `rms`
is `(2 - 4)/1 = -2` — a negative number, whose square root is NaN, not
the unbiased sample standard deviation. -/
theorem C3_counterexample :
    trimVar corrOne hitsQ11 = -2 ∧ unbiasedVar corrOne hitsQ11 = 0 ∧
    trimVar corrOne hitsQ11 ≠ unbiasedVar corrOne hitsQ11 := by
  refine ⟨?_, ?_, ?_⟩ <;>
    norm_num [trimVar, unbiasedVar, chargeSum, chargeSqSum, lifeQ, corrOne,
      hitsQ11, firstPassMean]

/-- Claim C3 (amended): the spread the code uses for the ±2-sigma trim is
`sqrt((charge2 - charge*charge)/(n-1))`, whose squared value differs from
the unbiased sample variance by exactly `(charge)^2 / n`: for every
spacepoint with two or more hits,
`trimVar = unbiasedVar - chargeSum^2 / n`.  (The code subtracts the
square of the *sum* instead of the square of the sum divided by `n`, so
its `rms` is not the unbiased sample standard deviation; the argument is
negative — NaN — whenever the corrected charges are not almost all
zero.) -/
theorem C3_amended_trimVar (corr : ℚ → ℚ) (hits : List Hit)
    (hlen : 2 ≤ hits.length) :
    trimVar corr hits =
      unbiasedVar corr hits - (chargeSum corr hits) ^ 2 / (hits.length : ℚ) := by
  have hlen1 : 1 < hits.length := by omega
  have hn : (0 : ℚ) < (hits.length : ℚ) := by positivity
  have hn2 : (2 : ℚ) ≤ (hits.length : ℚ) := by exact_mod_cast hlen
  have hden : ((hits.length : ℚ) - 1) ≠ 0 := by linarith
  have hdev : hits.foldl
      (fun s h => s + (lifeQ corr h - firstPassMean corr hits) ^ 2) 0 =
      chargeSqSum corr hits - 2 * firstPassMean corr hits * chargeSum corr hits +
        (hits.length : ℚ) * (firstPassMean corr hits) ^ 2 := by
    rw [foldl_add_eq (fun h => (lifeQ corr h - firstPassMean corr hits) ^ 2)
      hits 0, zero_add]
    have hmm : hits.map (fun h => (lifeQ corr h - firstPassMean corr hits) ^ 2) =
        (hits.map (lifeQ corr)).map
          (fun q => (q - firstPassMean corr hits) ^ 2) := by
      rw [List.map_map]
      rfl
    rw [hmm, sum_sq_dev, chargeSqSum_eq, chargeSum_eq, List.length_map]
  rw [trimVar, if_pos hlen1, unbiasedVar, hdev, firstPassMean]
  field_simp
  ring

/-- Witness for `C3_amended_trimVar` at the two hits with corrected
integrals 3 and 1. -/
theorem C3_witness :
    trimVar corrOne hitsQ31 =
      unbiasedVar corrOne hitsQ31 -
        (chargeSum corrOne hitsQ31) ^ 2 / (hitsQ31.length : ℚ) :=
  C3_amended_trimVar corrOne hitsQ31 (by decide)

/-! ### Claim C7: `OrderShowerHits` retains only first-plane hits -/

/-- Every value stored after a `mapInsert` is the inserted value or was
already in the map. -/
theorem mapInsert_mem {α : Type} (k : ℚ) (v : α) :
    ∀ (m : List (ℚ × α)) (p : ℚ × α), p ∈ mapInsert k v m → p.2 = v ∨ p ∈ m
  | [], p, hp => by
    rw [mapInsert] at hp
    rcases List.mem_singleton.1 hp with rfl
    exact .inl rfl
  | (k0, v0) :: rest, p, hp => by
    rw [mapInsert] at hp
    split at hp
    · rcases List.mem_cons.1 hp with rfl | h
      · exact .inl rfl
      · exact .inr h
    · split at hp
      · rcases List.mem_cons.1 hp with rfl | h
        · exact .inr (List.mem_cons_self _ rest)
        · rcases mapInsert_mem k v rest p h with h2 | h2
          · exact .inl h2
          · exact .inr (List.mem_cons_of_mem _ h2)
      · rcases List.mem_cons.1 hp with rfl | h
        · exact .inl rfl
        · exact .inr (List.mem_cons_of_mem _ h)

/-- Every value stored after folding `mapInsert` over a list came from
that list or from the initial map. -/
theorem foldl_mapInsert_snd_mem {α : Type} (f : α → ℚ) :
    ∀ (l : List α) (m0 : List (ℚ × α)) (p : ℚ × α),
      p ∈ l.foldl (fun m x => mapInsert (f x) x m) m0 → p.2 ∈ l ∨ p ∈ m0
  | [], _, _, hp => .inr hp
  | x :: rest, m0, p, hp => by
    rw [List.foldl_cons] at hp
    rcases foldl_mapInsert_snd_mem f rest (mapInsert (f x) x m0) p hp with h | h
    · exact .inl (List.mem_cons_of_mem x h)
    · rcases mapInsert_mem (f x) x m0 p h with h2 | h2
      · exact .inl (h2 ▸ List.mem_cons_self x rest)
      · exact .inr h2

/-- Claim C7: for every non-empty input hit list, every hit returned by
`OrderShowerHits` lies on the same plane as the first input hit — the
loop `break`s at the first hit of a different plane, so no hit on a
different plane from the first hit appears in the output (the trailing
subsequence from that point on is silently dropped). -/
theorem C7_orderShowerHits_plane (msqrt : ℚ → ℚ) (geo : Geo) (hits : List Hit)
    (startPos direction : Vec3) (hne : hits ≠ []) :
    ∀ h ∈ orderShowerHits msqrt geo hits startPos direction,
      h.plane = (hits.head hne).plane := by
  intro h hmem
  obtain ⟨a, rest, rfl⟩ : ∃ a rest, hits = a :: rest := by
    cases hits with
    | nil => exact absurd rfl hne
    | cons a rest => exact ⟨a, rest, rfl⟩
  simp only [List.head_cons]
  rw [orderShowerHits] at hmem
  split at hmem
  · exact absurd hmem (List.not_mem_nil h)
  case _ f restHits heq =>
    have hmem2 : h ∈ f :: restHits := by
      by_cases hrev : |dot2 (sub2 (hitCoordinates geo
          (restHits.getLastD f)) (geo.wireCoordinate startPos a.plane *
            geo.wirePitch a.plane, startPos.x)) (unit2 msqrt
              (vdot direction (geo.increasingWireDirection a.plane),
                direction.x))| <
          |dot2 (sub2 (hitCoordinates geo f) (geo.wireCoordinate startPos
            a.plane * geo.wirePitch a.plane, startPos.x)) (unit2 msqrt
              (vdot direction (geo.increasingWireDirection a.plane),
                direction.x))|
      · rw [if_pos hrev] at hmem
        exact List.mem_reverse.1 hmem
      · rwa [if_neg hrev] at hmem
    rw [← heq] at hmem2
    rcases List.mem_map.1 hmem2 with ⟨p, hp, rfl⟩
    rcases foldl_mapInsert_snd_mem _ _ [] p hp with hin | hin
    · simpa using List.mem_takeWhile_imp hin
    · exact absurd hin (List.not_mem_nil p)

/-- Witness for `C7_orderShowerHits_plane`: a plane-0 hit followed by a
plane-1 hit; the plane-0 hit is in the output and is on the first hit's
plane. -/
theorem orderShowerHits_fix_eval :
    orderShowerHits (fun q => q) geoFix [hitPlane0, hitPlane1]
      ⟨0, 0, 0⟩ ⟨1, 0, 0⟩ = [hitPlane0] := by
  norm_num [orderShowerHits, geoFix, hitPlane0, hitPlane1, hitCoordinates,
    unit2, dot2, sub2, vdot, mapInsert, List.takeWhile]

/-- Witness for `C7_orderShowerHits_plane`: a plane-0 hit followed by a
plane-1 hit; the plane-0 hit is in the output and is on the first hit's
plane. -/
theorem C7_witness :
    hitPlane0 ∈ orderShowerHits (fun q => q) geoFix [hitPlane0, hitPlane1]
      ⟨0, 0, 0⟩ ⟨1, 0, 0⟩ ∧
    hitPlane0.plane =
      (([hitPlane0, hitPlane1] : List Hit).head (by simp)).plane :=
  ⟨by rw [orderShowerHits_fix_eval]; exact List.mem_singleton.2 rfl,
    C7_orderShowerHits_plane (fun q => q) geoFix [hitPlane0, hitPlane1]
      ⟨0, 0, 0⟩ ⟨1, 0, 0⟩ (by simp) hitPlane0
      (by rw [orderShowerHits_fix_eval]; exact List.mem_singleton.2 rfl)⟩

/-! ### Claim C8: duplicate projections collapse in `OrderShowerSpacePoints` -/

/-- Every key present after a `mapInsert` is the inserted key or an
existing key. -/
theorem mapInsert_fst_mem {α : Type} (k : ℚ) (v : α) :
    ∀ (m : List (ℚ × α)) (p : ℚ × α), p ∈ mapInsert k v m →
      p.1 = k ∨ p.1 ∈ m.map Prod.fst
  | [], p, hp => by
    rw [mapInsert] at hp
    rcases List.mem_singleton.1 hp with rfl
    exact .inl rfl
  | (k0, v0) :: rest, p, hp => by
    rw [mapInsert] at hp
    split at hp
    · rcases List.mem_cons.1 hp with rfl | h
      · exact .inl rfl
      · exact .inr (List.mem_map_of_mem Prod.fst h)
    · split at hp
      · rcases List.mem_cons.1 hp with rfl | h
        · exact .inr (List.mem_map_of_mem Prod.fst (List.mem_cons_self _ rest))
        · rcases mapInsert_fst_mem k v rest p h with h2 | h2
          · exact .inl h2
          · refine .inr ?_
            rw [List.map_cons]
            exact List.mem_cons_of_mem _ h2
      · rcases List.mem_cons.1 hp with rfl | h
        · refine .inr ?_
          rw [List.map_cons]
          exact List.mem_cons_self _ _
        · exact .inr (List.mem_map_of_mem Prod.fst (List.mem_cons_of_mem _ h))

/-- `mapInsert` preserves strict sortedness of the keys. -/
theorem mapInsert_pairwise {α : Type} (k : ℚ) (v : α) :
    ∀ m : List (ℚ × α), m.Pairwise (fun a b => a.1 < b.1) →
      (mapInsert k v m).Pairwise (fun a b => a.1 < b.1)
  | [], _ => by simp [mapInsert]
  | (k0, v0) :: rest, hp => by
    rcases List.pairwise_cons.1 hp with ⟨hk0, hrest⟩
    rw [mapInsert]
    split
    case isTrue hlt =>
      refine List.pairwise_cons.2 ⟨?_, hp⟩
      intro p hpmem
      rcases List.mem_cons.1 hpmem with rfl | hm
      · exact hlt
      · exact hlt.trans (hk0 p hm)
    case isFalse h1 =>
      split
      case isTrue hgt =>
        refine List.pairwise_cons.2 ⟨?_, mapInsert_pairwise k v rest hrest⟩
        intro p hpmem
        rcases mapInsert_fst_mem k v rest p hpmem with h2 | h2
        · rw [h2]
          exact hgt
        · rcases List.mem_map.1 h2 with ⟨q, hq, hqe⟩
          rw [← hqe]
          exact hk0 q hq
      case isFalse h2 =>
        exact List.pairwise_cons.2 ⟨fun p hm => hk0 p hm, hrest⟩

/-- A property of key-value pairs that holds of the map and of the
inserted pair holds after insertion, provided it only depends on the pair
through its key and value (the overwrite branch reuses the equal stored
key). -/
theorem mapInsert_forall {α : Type} (P : ℚ × α → Prop) (k : ℚ) (v : α)
    (hP : ∀ k1, k1 = k → P (k1, v)) :
    ∀ m : List (ℚ × α), (∀ p ∈ m, P p) → ∀ p ∈ mapInsert k v m, P p
  | [], _, p, hp => by
    rw [mapInsert] at hp
    rcases List.mem_singleton.1 hp with rfl
    exact hP k rfl
  | (k0, v0) :: rest, hm, p, hp => by
    rw [mapInsert] at hp
    split at hp
    · rcases List.mem_cons.1 hp with rfl | h
      · exact hP k rfl
      · exact hm p h
    · split at hp
      case isTrue h1 h2 =>
        rcases List.mem_cons.1 hp with rfl | h
        · exact hm _ (List.mem_cons_self _ rest)
        · exact mapInsert_forall P k v hP rest
            (fun q hq => hm q (List.mem_cons_of_mem _ hq)) p h
      case isFalse h1 h2 =>
        rcases List.mem_cons.1 hp with rfl | h
        · exact hP k0 (le_antisymm (not_lt.1 h1) (not_lt.1 h2))
        · exact hm p (List.mem_cons_of_mem _ h)

/-- After a `mapInsert`, some pair carries the inserted key. -/
theorem mapInsert_key_self {α : Type} (k : ℚ) (v : α) :
    ∀ m : List (ℚ × α), ∃ p ∈ mapInsert k v m, p.1 = k
  | [] => ⟨(k, v), by rw [mapInsert]; exact List.mem_singleton.2 rfl, rfl⟩
  | (k0, v0) :: rest => by
    rw [mapInsert]
    split
    · exact ⟨(k, v), List.mem_cons_self _ _, rfl⟩
    · split
      case isTrue h1 h2 =>
        rcases mapInsert_key_self k v rest with ⟨p, hp, hpk⟩
        exact ⟨p, List.mem_cons_of_mem _ hp, hpk⟩
      case isFalse h1 h2 =>
        exact ⟨(k0, v), List.mem_cons_self _ _,
          le_antisymm (not_lt.1 h1) (not_lt.1 h2)⟩

/-- `mapInsert` never removes a key. -/
theorem mapInsert_key_mono {α : Type} (k : ℚ) (v : α) (k1 : ℚ) :
    ∀ m : List (ℚ × α), (∃ p ∈ m, p.1 = k1) →
      ∃ p ∈ mapInsert k v m, p.1 = k1
  | [], h => by
    rcases h with ⟨p, hp, _⟩
    exact absurd hp (List.not_mem_nil p)
  | (k0, v0) :: rest, h => by
    rcases h with ⟨p, hp, hpk⟩
    rw [mapInsert]
    split
    · exact ⟨p, List.mem_cons_of_mem _ hp, hpk⟩
    · split
      case isTrue h1 h2 =>
        rcases List.mem_cons.1 hp with rfl | hmem
        · exact ⟨(k0, v0), List.mem_cons_self _ _, hpk⟩
        · rcases mapInsert_key_mono k v k1 rest ⟨p, hmem, hpk⟩ with ⟨q, hq, hqk⟩
          exact ⟨q, List.mem_cons_of_mem _ hq, hqk⟩
      case isFalse h1 h2 =>
        rcases List.mem_cons.1 hp with rfl | hmem
        · exact ⟨(k0, v), List.mem_cons_self _ _, hpk⟩
        · exact ⟨p, List.mem_cons_of_mem _ hmem, hpk⟩

/-- Folding `mapInsert` keyed by `f` keeps the keys strictly sorted. -/
theorem foldl_mapInsert_pairwise {α : Type} (f : α → ℚ) :
    ∀ (l : List α) (m0 : List (ℚ × α)),
      m0.Pairwise (fun a b => a.1 < b.1) →
      (l.foldl (fun m x => mapInsert (f x) x m) m0).Pairwise
        (fun a b => a.1 < b.1)
  | [], _, h => h
  | x :: rest, m0, h => by
    rw [List.foldl_cons]
    exact foldl_mapInsert_pairwise f rest _ (mapInsert_pairwise (f x) x m0 h)

/-- Folding `mapInsert` keyed by `f` keeps every stored key equal to `f`
of its stored value. -/
theorem foldl_mapInsert_keyfun {α : Type} (f : α → ℚ) :
    ∀ (l : List α) (m0 : List (ℚ × α)), (∀ p ∈ m0, p.1 = f p.2) →
      ∀ p ∈ l.foldl (fun m x => mapInsert (f x) x m) m0, p.1 = f p.2
  | [], _, h => h
  | x :: rest, m0, h => by
    rw [List.foldl_cons]
    exact foldl_mapInsert_keyfun f rest _
      (mapInsert_forall (fun p => p.1 = f p.2) (f x) x
        (fun k1 hk1 => hk1) m0 h)

/-- Folding `mapInsert` keyed by `f` keeps every existing key. -/
theorem foldl_mapInsert_key_mono {α : Type} (f : α → ℚ) (k1 : ℚ) :
    ∀ (l : List α) (m0 : List (ℚ × α)), (∃ p ∈ m0, p.1 = k1) →
      ∃ p ∈ l.foldl (fun m x => mapInsert (f x) x m) m0, p.1 = k1
  | [], _, h => h
  | x :: rest, m0, h => by
    rw [List.foldl_cons]
    exact foldl_mapInsert_key_mono f k1 rest _ (mapInsert_key_mono (f x) x k1 m0 h)

/-- Every list element's key is present after folding `mapInsert`. -/
theorem foldl_mapInsert_key_covers {α : Type} (f : α → ℚ) :
    ∀ (l : List α) (m0 : List (ℚ × α)) (x : α), x ∈ l →
      ∃ p ∈ l.foldl (fun m y => mapInsert (f y) y m) m0, p.1 = f x
  | [], _, x, hx => absurd hx (List.not_mem_nil x)
  | y :: rest, m0, x, hx => by
    rw [List.foldl_cons]
    rcases List.mem_cons.1 hx with rfl | hmem
    · exact foldl_mapInsert_key_mono f (f x) rest _
        (mapInsert_key_self (f x) x m0)
    · exact foldl_mapInsert_key_covers f rest _ x hmem

/-- Claim C8: in `OrderShowerSpacePoints`, the output's projection values
are pairwise distinct, every input projection value is still represented,
every output element comes from the input, and whenever two input
elements at distinct positions have exactly equal projections the output
is strictly shorter than the input — i.e. only one element per distinct
projection value is retained and the other elements with that projection
are silently dropped. -/
theorem C8_orderShowerSpacePoints_collapse (sps : List Vec3)
    (vertex direction : Vec3) :
    ((orderShowerSpacePoints sps vertex direction).map
      (fun sp => spacePointProjection sp vertex direction)).Nodup ∧
    (∀ sp ∈ sps, ∃ sp2 ∈ orderShowerSpacePoints sps vertex direction,
      spacePointProjection sp2 vertex direction =
        spacePointProjection sp vertex direction) ∧
    (∀ sp2 ∈ orderShowerSpacePoints sps vertex direction, sp2 ∈ sps) ∧
    (∀ (i j : ℕ) (hi : i < sps.length) (hj : j < sps.length), i ≠ j →
      spacePointProjection (sps.get ⟨i, hi⟩) vertex direction =
        spacePointProjection (sps.get ⟨j, hj⟩) vertex direction →
      (orderShowerSpacePoints sps vertex direction).length < sps.length) := by
  set f : Vec3 → ℚ := fun sp => spacePointProjection sp vertex direction with hf
  set M := sps.foldl (fun m sp => mapInsert (f sp) sp m) [] with hM
  have hout : orderShowerSpacePoints sps vertex direction = M.map Prod.snd := rfl
  have hkeyfun : ∀ p ∈ M, p.1 = f p.2 :=
    foldl_mapInsert_keyfun f sps [] (by simp)
  have hpair : M.Pairwise (fun a b => a.1 < b.1) :=
    foldl_mapInsert_pairwise f sps [] (by simp)
  have hmapeq : (M.map Prod.snd).map f = M.map Prod.fst := by
    rw [List.map_map]
    exact List.map_congr_left (fun p hp => (hkeyfun p hp).symm)
  have hnodup : ((orderShowerSpacePoints sps vertex direction).map f).Nodup := by
    rw [hout, hmapeq]
    exact (List.pairwise_map.2 hpair).imp ne_of_lt
  have hsnd : ∀ sp2 ∈ orderShowerSpacePoints sps vertex direction, sp2 ∈ sps := by
    intro sp2 hsp2
    rw [hout] at hsp2
    rcases List.mem_map.1 hsp2 with ⟨p, hp, rfl⟩
    rcases foldl_mapInsert_snd_mem f sps [] p hp with h | h
    · exact h
    · exact absurd h (List.not_mem_nil p)
  have hcover : ∀ sp ∈ sps,
      ∃ sp2 ∈ orderShowerSpacePoints sps vertex direction, f sp2 = f sp := by
    intro sp hsp
    rcases foldl_mapInsert_key_covers f sps [] sp hsp with ⟨p, hp, hpk⟩
    refine ⟨p.2, ?_, ?_⟩
    · rw [hout]
      exact List.mem_map.2 ⟨p, hp, rfl⟩
    · rw [← hkeyfun p hp, hpk]
  refine ⟨hnodup, hcover, hsnd, ?_⟩
  intro i j hi hj hij heq
  have hmlen : (sps.map f).length = sps.length := List.length_map sps f
  have hnotnodup : ¬(sps.map f).Nodup := by
    intro hnd
    have hi2 : i < (sps.map f).length := by rwa [hmlen]
    have hj2 : j < (sps.map f).length := by rwa [hmlen]
    have hgij : (sps.map f).get ⟨i, hi2⟩ = (sps.map f).get ⟨j, hj2⟩ := by
      simp only [List.get_eq_getElem, List.getElem_map]
      simpa only [List.get_eq_getElem] using heq
    have := hnd.get_inj_iff.1 hgij
    exact hij (by simpa using congrArg Fin.val this)
  have hsubset : ((orderShowerSpacePoints sps vertex direction).map f) ⊆
      (sps.map f).dedup := by
    intro y hy
    rcases List.mem_map.1 hy with ⟨sp2, hsp2, rfl⟩
    exact List.mem_dedup.2 (List.mem_map.2 ⟨sp2, hsnd sp2 hsp2, rfl⟩)
  have hle : ((orderShowerSpacePoints sps vertex direction).map f).length ≤
      (sps.map f).dedup.length :=
    (List.subperm_of_subset hnodup hsubset).length_le
  have hdlt : (sps.map f).dedup.length < (sps.map f).length := by
    rcases lt_or_eq_of_le ((sps.map f).dedup_sublist.length_le) with h | h
    · exact h
    · exact absurd (((sps.map f).dedup_sublist.eq_of_length h) ▸
        (sps.map f).nodup_dedup) hnotnodup
  have : (orderShowerSpacePoints sps vertex direction).length ≤
      (sps.map f).dedup.length := by
    simpa using hle
  omega

/-- Witness for `C8_orderShowerSpacePoints_collapse`: two distinct
spacepoints with equal projection 0 along the x axis collapse into a
single output element. -/
theorem C8_witness :
    (orderShowerSpacePoints spsDupProj ⟨0, 0, 0⟩ ⟨1, 0, 0⟩).length <
      spsDupProj.length :=
  (C8_orderShowerSpacePoints_collapse spsDupProj ⟨0, 0, 0⟩ ⟨1, 0, 0⟩).2.2.2
    0 1 (by decide) (by decide) (by decide)
    (by norm_num [spsDupProj, spacePointProjection, vsub, vdot])

/-! ### Claim C6: `OrganizeHits` picks the max-integral primary -/

/-- `sameSnippet` unfolded to propositional equalities. -/
theorem sameSnippet_iff (a b : HId) :
    sameSnippet a b = true ↔
      a.startTick = b.startTick ∧ a.endTick = b.endTick ∧ a.wire = b.wire := by
  simp [sameSnippet, Bool.and_eq_true, and_assoc]

/-- `sameSnippet` is symmetric. -/
theorem sameSnippet_symm {a b : HId} (h : sameSnippet a b = true) :
    sameSnippet b a = true := by
  rcases (sameSnippet_iff a b).1 h with ⟨h1, h2, h3⟩
  exact (sameSnippet_iff b a).2 ⟨h1.symm, h2.symm, h3.symm⟩

/-- `sameSnippet` is transitive. -/
theorem sameSnippet_trans {a b c : HId} (h1 : sameSnippet a b = true)
    (h2 : sameSnippet b c = true) : sameSnippet a c = true := by
  rcases (sameSnippet_iff a b).1 h1 with ⟨x1, x2, x3⟩
  rcases (sameSnippet_iff b c).1 h2 with ⟨y1, y2, y3⟩
  exact (sameSnippet_iff a c).2 ⟨x1.trans y1, x2.trans y2, x3.trans y3⟩

/-- Widening the index bound of a snippet group. -/
theorem SnipLt.mono {s : Snip} {n m : ℕ} (h : SnipLt s n) (hnm : n ≤ m) :
    SnipLt s m :=
  ⟨lt_of_lt_of_le h.1 hnm, fun j hj => lt_of_lt_of_le (h.2 j hj) hnm⟩

/-- The inner loop of `OrganizeHits` preserves group correctness: feeding
hit `i` (present in `hits` at index `i`, with `i` at least the bound of
every recorded index) into a correct row yields a correct row bounded by
`i + 1`. -/
theorem updateRow_inv (hits : List Hit) (i : ℕ) (h : Hit)
    (hih : hits.get? i = some h) :
    ∀ row : List Snip, (∀ s ∈ row, SnipOK hits s ∧ SnipLt s i) →
      ∀ s ∈ updateRow i (hIdOf h) row, SnipOK hits s ∧ SnipLt s (i + 1)
  | [], _, s, hs => by
    rw [updateRow] at hs
    rcases List.mem_singleton.1 hs with rfl
    refine ⟨⟨h, hih, rfl, ?_⟩, Nat.lt_succ_self i, ?_⟩
    · intro j hj
      exact absurd hj (List.not_mem_nil j)
    · intro j hj
      exact absurd hj (List.not_mem_nil j)
  | s0 :: rest, hrow, s, hs => by
    rw [updateRow] at hs
    by_cases hsame : sameSnippet (hIdOf h) s0.ident = true
    · rw [if_pos hsame] at hs
      rcases List.mem_cons.1 hs with rfl | hmem
      · rcases hrow s0 (List.mem_cons_self s0 rest) with
          ⟨⟨hp0, hget0, hid0, hsecs0⟩, hplt0, hslt0⟩
        have hsame0 : sameSnippet (hIdOf h) (hIdOf hp0) = true := by
          rwa [hid0] at hsame
        have hintid : s0.ident.integral = hp0.integral := by
          rw [hid0]
          rfl
        by_cases hgt : s0.ident.integral < (hIdOf h).integral
        · rw [if_pos hgt]
          have hgt2 : hp0.integral < h.integral := by
            rwa [hintid] at hgt
          refine ⟨⟨h, hih, rfl, ?_⟩, Nat.lt_succ_self i, ?_⟩
          · intro j hj
            rcases List.mem_append.1 hj with hj2 | hj2
            · rcases hsecs0 j hj2 with ⟨hjh, hjget, hjle, _, hjsame⟩
              refine ⟨hjh, hjget, le_of_lt (lt_of_le_of_lt hjle hgt2), ?_, ?_⟩
              · intro hje
                have hcon : hjh.integral < h.integral := lt_of_le_of_lt hjle hgt2
                rw [hje] at hcon
                exact absurd hcon (lt_irrefl h.integral)
              · exact sameSnippet_trans hjsame (sameSnippet_symm hsame0)
            · rcases List.mem_singleton.1 hj2 with rfl
              refine ⟨hp0, hget0, le_of_lt hgt2, ?_, sameSnippet_symm hsame0⟩
              intro hje
              rw [hje] at hgt2
              exact absurd hgt2 (lt_irrefl h.integral)
          · intro j hj
            rcases List.mem_append.1 hj with hj2 | hj2
            · exact lt_of_lt_of_le (hslt0 j hj2) (Nat.le_succ i)
            · rcases List.mem_singleton.1 hj2 with rfl
              exact lt_of_lt_of_le hplt0 (Nat.le_succ i)
        · rw [if_neg hgt]
          have hle2 : h.integral ≤ hp0.integral := by
            have := not_lt.1 hgt
            rwa [hintid] at this
          refine ⟨⟨hp0, hget0, hid0, ?_⟩, lt_of_lt_of_le hplt0 (Nat.le_succ i), ?_⟩
          · intro j hj
            rcases List.mem_append.1 hj with hj2 | hj2
            · rcases hsecs0 j hj2 with ⟨hjh, hjget, hjle, hjtie, hjsame⟩
              exact ⟨hjh, hjget, hjle, hjtie, hjsame⟩
            · rcases List.mem_singleton.1 hj2 with rfl
              exact ⟨h, hih, hle2, fun _ => hplt0, hsame0⟩
          · intro j hj
            rcases List.mem_append.1 hj with hj2 | hj2
            · exact lt_of_lt_of_le (hslt0 j hj2) (Nat.le_succ i)
            · rcases List.mem_singleton.1 hj2 with rfl
              exact Nat.lt_succ_self _
      · rcases hrow s (List.mem_cons_of_mem s0 hmem) with ⟨hok, hlt⟩
        exact ⟨hok, hlt.mono (Nat.le_succ i)⟩
    · rw [if_neg hsame] at hs
      rcases List.mem_cons.1 hs with rfl | hmem
      · rcases hrow s (List.mem_cons_self s rest) with ⟨hok, hlt⟩
        exact ⟨hok, hlt.mono (Nat.le_succ i)⟩
      · exact updateRow_inv hits i h hih rest
          (fun q hq => hrow q (List.mem_cons_of_mem s0 hq)) s hmem

/-- The main loop of `OrganizeHits` preserves group correctness across
all planes, given that the pending (index, hit) pairs are faithful to
`hits`, are at least the current bound, and arrive in strictly increasing
index order. -/
theorem buildRowsGo_inv (hits : List Hit) :
    ∀ (todo : List (ℕ × Hit)) (st : ℕ → List Snip) (n : ℕ),
      (∀ p, ∀ s ∈ st p, SnipOK hits s ∧ SnipLt s n) →
      (∀ x ∈ todo, hits.get? x.1 = some x.2 ∧ n ≤ x.1) →
      List.Pairwise (fun a b => a.1 < b.1) todo →
      ∀ p, ∀ s ∈ buildRowsGo todo st p, SnipOK hits s
  | [], st, n, hst, _, _, p, s => fun hs => (hst p s hs).1
  | (i, h) :: rest, st, n, hst, htodo, hpair, p, s => by
    intro hs
    rw [buildRowsGo] at hs
    rcases htodo (i, h) (List.mem_cons_self _ rest) with ⟨hget, hni⟩
    rcases List.pairwise_cons.1 hpair with ⟨hhead, htail⟩
    refine buildRowsGo_inv hits rest _ (i + 1) ?_ ?_ htail p s hs
    · intro p2 s2 hs2
      by_cases hp2 : p2 = h.plane
      · rw [if_pos hp2] at hs2
        exact updateRow_inv hits i h hget (st p2)
          (fun q hq => ⟨(hst p2 q hq).1, ((hst p2 q hq).2).mono hni⟩) s2 hs2
      · rw [if_neg hp2] at hs2
        exact ⟨(hst p2 s2 hs2).1,
          ((hst p2 s2 hs2).2).mono (le_trans hni (Nat.le_succ i))⟩
    · intro x hx
      exact ⟨(htodo x (List.mem_cons_of_mem _ hx)).1,
        Nat.succ_le_of_lt (hhead x hx)⟩

/-- Indices produced by `enumIdx` are at least the start index and point
to the corresponding list entry. -/
theorem enumIdx_mem_get : ∀ (l : List Hit) (n i : ℕ) (h : Hit),
    (i, h) ∈ enumIdx n l → n ≤ i ∧ l.get? (i - n) = some h
  | [], n, i, h, hm => absurd hm (List.not_mem_nil (i, h))
  | a :: rest, n, i, h, hm => by
    rw [enumIdx] at hm
    rcases List.mem_cons.1 hm with heq | hmem
    · injection heq with h1 h2
      subst h1
      subst h2
      exact ⟨le_refl _, by simp⟩
    · rcases enumIdx_mem_get rest (n + 1) i h hmem with ⟨hle, hget⟩
      refine ⟨le_trans (Nat.le_succ n) hle, ?_⟩
      have hsub : i - n = (i - (n + 1)) + 1 := by omega
      rw [hsub, List.get?_cons_succ]
      exact hget

/-- `enumIdx` produces strictly increasing indices. -/
theorem enumIdx_pairwise : ∀ (l : List Hit) (n : ℕ),
    List.Pairwise (fun a b => a.1 < b.1) (enumIdx n l)
  | [], _ => List.Pairwise.nil
  | a :: rest, n => by
    rw [enumIdx]
    refine List.pairwise_cons.2 ⟨?_, enumIdx_pairwise rest (n + 1)⟩
    intro x hx
    exact lt_of_lt_of_le (Nat.lt_succ_self n) (enumIdx_mem_get rest (n + 1) x.1 x.2 hx).1

/-- Every list entry appears in `enumIdx` at its shifted index. -/
theorem enumIdx_mem_of_get : ∀ (l : List Hit) (n i : ℕ) (h : Hit),
    l.get? i = some h → (n + i, h) ∈ enumIdx n l
  | [], _, i, h, hget => by simp at hget
  | a :: rest, n, 0, h, hget => by
    rw [enumIdx]
    rcases Option.some.injEq .. ▸ hget with rfl
    exact List.mem_cons_self _ _
  | a :: rest, n, i + 1, h, hget => by
    rw [enumIdx]
    rw [List.get?_cons_succ] at hget
    have := enumIdx_mem_of_get rest (n + 1) i h hget
    have harith : n + (i + 1) = (n + 1) + i := by omega
    rw [harith]
    exact List.mem_cons_of_mem _ this

/-- The incoming index always lands in some group of the updated row. -/
theorem updateRow_covers (i : ℕ) (hid : HId) :
    ∀ row : List Snip, ∃ s ∈ updateRow i hid row, SnipHas s i
  | [] => by
    rw [updateRow]
    exact ⟨⟨i, [], hid⟩, List.mem_singleton.2 rfl, .inl rfl⟩
  | s0 :: rest => by
    rw [updateRow]
    by_cases hsame : sameSnippet hid s0.ident = true
    · rw [if_pos hsame]
      by_cases hgt : s0.ident.integral < hid.integral
      · rw [if_pos hgt]
        exact ⟨_, List.mem_cons_self _ rest, .inl rfl⟩
      · rw [if_neg hgt]
        exact ⟨_, List.mem_cons_self _ rest,
          .inr (List.mem_append.2 (.inr (List.mem_singleton.2 rfl)))⟩
    · rw [if_neg hsame]
      rcases updateRow_covers i hid rest with ⟨s, hs, hhas⟩
      exact ⟨s, List.mem_cons_of_mem s0 hs, hhas⟩

/-- Updating a row never loses a recorded index. -/
theorem updateRow_has_mono (i : ℕ) (hid : HId) (j : ℕ) :
    ∀ row : List Snip, (∃ s ∈ row, SnipHas s j) →
      ∃ s ∈ updateRow i hid row, SnipHas s j
  | [], h => by
    rcases h with ⟨s, hs, _⟩
    exact absurd hs (List.not_mem_nil s)
  | s0 :: rest, h => by
    rcases h with ⟨s, hs, hhas⟩
    rw [updateRow]
    by_cases hsame : sameSnippet hid s0.ident = true
    · rw [if_pos hsame]
      rcases List.mem_cons.1 hs with rfl | hmem
      · by_cases hgt : s.ident.integral < hid.integral
        · rw [if_pos hgt]
          refine ⟨_, List.mem_cons_self _ rest, ?_⟩
          rcases hhas with hp | hsec
          · exact .inr (List.mem_append.2 (.inr (List.mem_singleton.2 hp.symm)))
          · exact .inr (List.mem_append.2 (.inl hsec))
        · rw [if_neg hgt]
          refine ⟨_, List.mem_cons_self _ rest, ?_⟩
          rcases hhas with hp | hsec
          · exact .inl hp
          · exact .inr (List.mem_append.2 (.inl hsec))
      · by_cases hgt : s0.ident.integral < hid.integral
        · rw [if_pos hgt]
          exact ⟨s, List.mem_cons_of_mem _ hmem, hhas⟩
        · rw [if_neg hgt]
          exact ⟨s, List.mem_cons_of_mem _ hmem, hhas⟩
    · rw [if_neg hsame]
      rcases List.mem_cons.1 hs with rfl | hmem
      · exact ⟨s, List.mem_cons_self s _, hhas⟩
      · rcases updateRow_has_mono i hid j rest ⟨s, hmem, hhas⟩ with ⟨q, hq, hqhas⟩
        exact ⟨q, List.mem_cons_of_mem s0 hq, hqhas⟩

/-- The main loop never loses a recorded index. -/
theorem buildRowsGo_has_mono :
    ∀ (todo : List (ℕ × Hit)) (st : ℕ → List Snip) (p : ℕ) (j : ℕ),
      (∃ s ∈ st p, SnipHas s j) → ∃ s ∈ buildRowsGo todo st p, SnipHas s j
  | [], _, _, _, h => h
  | (i, h) :: rest, st, p, j, hex => by
    rw [buildRowsGo]
    refine buildRowsGo_has_mono rest _ p j ?_
    by_cases hp : p = h.plane
    · rw [if_pos hp]
      exact updateRow_has_mono i (hIdOf h) j (st p) hex
    · rw [if_neg hp]
      exact hex

/-- Every pending (index, hit) pair ends up recorded in the row of the
hit's plane. -/
theorem buildRowsGo_covers :
    ∀ (todo : List (ℕ × Hit)) (st : ℕ → List Snip) (i : ℕ) (h : Hit),
      (i, h) ∈ todo → ∃ s ∈ buildRowsGo todo st h.plane, SnipHas s i
  | [], _, i, h, hm => absurd hm (List.not_mem_nil (i, h))
  | (i0, h0) :: rest, st, i, h, hm => by
    rw [buildRowsGo]
    rcases List.mem_cons.1 hm with heq | hmem
    · rcases Prod.mk.injEq .. ▸ heq with ⟨rfl, rfl⟩
      refine buildRowsGo_has_mono rest _ h.plane i ?_
      rw [if_pos rfl]
      exact updateRow_covers i (hIdOf h) (st h.plane)
    · exact buildRowsGo_covers rest _ i h hmem

/-- Claim C6: in `OrganizeHits`, (i) for every group in the output, every
secondary has integral at most the primary's, an equal-integral secondary
was seen strictly after the primary (ties resolved first-seen-wins by the
strict greater-than comparison), and every secondary shares the primary's
snippet identity `(plane, wire, startTick, endTick)` (the plane is shared
because groups are built inside a single plane's row); (ii) every input
hit (on a valid plane, `nplanes = 6` being hardcoded) is recorded in some
group; (iii) concretely, two hits with identical identity and integrals 5
and 10 produce exactly the mapping from the integral-10 hit to the single
secondary of integral 5. -/
theorem C6_organizeHits_spec :
    (∀ (hits : List Hit) (g : ℕ × List ℕ), g ∈ organizeHitsIdx hits →
      ∃ hp, hits.get? g.1 = some hp ∧
        ∀ j ∈ g.2, ∃ hj, hits.get? j = some hj ∧
          hj.integral ≤ hp.integral ∧
          (hj.integral = hp.integral → g.1 < j) ∧
          sameSnippet (hIdOf hj) (hIdOf hp) = true) ∧
    (∀ (hits : List Hit) (i : ℕ) (h : Hit), hits.get? i = some h →
      h.plane < 6 → ∃ g ∈ organizeHitsIdx hits, g.1 = i ∨ i ∈ g.2) ∧
    organizeHits [hitInt5, hitInt10] = [(hitInt10, [hitInt5])] := by
  refine ⟨?_, ?_, by decide⟩
  · intro hits g hg
    rcases List.mem_flatten.1 hg with ⟨L, hL, hgL⟩
    rcases List.mem_map.1 hL with ⟨p, _, rfl⟩
    rcases List.mem_map.1 hgL with ⟨s, hs, rfl⟩
    have hok : SnipOK hits s := by
      refine buildRowsGo_inv hits (enumIdx 0 hits) (fun _ => []) 0 ?_ ?_
        (enumIdx_pairwise hits 0) p s hs
      · intro p2 s2 hs2
        exact absurd hs2 (List.not_mem_nil s2)
      · intro x hx
        rcases enumIdx_mem_get hits 0 x.1 x.2 hx with ⟨_, hget⟩
        rw [Nat.sub_zero] at hget
        exact ⟨hget, Nat.zero_le x.1⟩
    rcases hok with ⟨hp, hget, _, hsecs⟩
    exact ⟨hp, hget, hsecs⟩
  · intro hits i h hget hplane
    have hmem : (i, h) ∈ enumIdx 0 hits := by
      have := enumIdx_mem_of_get hits 0 i h hget
      rwa [Nat.zero_add] at this
    rcases buildRowsGo_covers (enumIdx 0 hits) (fun _ => []) i h hmem with
      ⟨s, hs, hhas⟩
    refine ⟨(s.primary, s.secs), ?_, ?_⟩
    · refine List.mem_flatten.2 ⟨(buildRows hits h.plane).map
        (fun s2 => (s2.primary, s2.secs)), ?_, ?_⟩
      · exact List.mem_map.2 ⟨h.plane, List.mem_range.2 hplane, rfl⟩
      · exact List.mem_map.2 ⟨s, hs, rfl⟩
    · rcases hhas with hpr | hsec
      · exact .inl hpr
      · exact .inr hsec

/-- Witness for `C6_organizeHits_spec`: the integral-5 hit at index 0 is
recorded in some group of `OrganizeHits [hitInt5, hitInt10]`. -/
theorem C6_witness :
    ∃ g ∈ organizeHitsIdx [hitInt5, hitInt10], g.1 = 0 ∨ 0 ∈ g.2 :=
  C6_organizeHits_spec.2.1 [hitInt5, hitInt10] 0 hitInt5 (by decide) (by decide)

end LArShower
